import Mathlib

/-!
Shallow embedding of the bounded growable circular byte buffer
(src/circular_buffer.rs) and proofs of its specification claims.

Bytes are modelled as `Nat`; the backing boxed slice is a `List Nat`.
Operations of the source that can abort at runtime (failed assertions,
out-of-range slicing, and the remainder operator applied with a zero
divisor, all of which stop the program) are modelled as returning
`Option`, with `none` standing for the abort.
-/

/-- Minimum capacity the buffer grows to when it grows from a small or
empty allocation; MINIMUM_NON_EMPTY_CAPACITY in the source. -/
def MINIMUM_NON_EMPTY_CAPACITY : Nat := 8

/-- The CircularBuffer struct: backing storage, read position, count of
unread bytes, hard capacity ceiling, and the recorded initial capacity. -/
structure CircularBuffer where
  buffer : List Nat
  position : Nat
  length : Nat
  max_capacity : Nat
  initial_capacity : Nat
  deriving DecidableEq

/-- CircularBuffer::new — initial capacity clamped to max_capacity, the
storage zero-filled, the clamped value recorded as initial_capacity. -/
def CircularBuffer.new (capacity max_capacity : Nat) : CircularBuffer :=
  let capacity := min capacity max_capacity
  { buffer := List.replicate capacity 0
    position := 0
    length := 0
    max_capacity := max_capacity
    initial_capacity := capacity }

/-- CircularBuffer::is_empty. -/
def CircularBuffer.is_empty (b : CircularBuffer) : Bool :=
  b.length == 0

/-- CircularBuffer::current_capacity — the size of the backing storage. -/
def CircularBuffer.current_capacity (b : CircularBuffer) : Nat :=
  b.buffer.length

/-- CircularBuffer::remaining_mut_without_realloc. -/
def CircularBuffer.remaining_mut_without_realloc (b : CircularBuffer) : Nat :=
  b.current_capacity - b.length

/-- Buf::remaining for CircularBuffer. -/
def CircularBuffer.remaining (b : CircularBuffer) : Nat :=
  b.length

/-- BufMut::remaining_mut for CircularBuffer. -/
def CircularBuffer.remaining_mut (b : CircularBuffer) : Nat :=
  b.max_capacity - b.length

/-- Buf::bytes for CircularBuffer: the slice
buffer[position .. min (position + length) current_capacity], the first
contiguous run of unread bytes. -/
def CircularBuffer.bytes (b : CircularBuffer) : List Nat :=
  (b.buffer.drop b.position).take
    (min (b.position + b.length) b.current_capacity - b.position)

/-- The logical FIFO content of the buffer: the unread bytes in order,
stitched across the wraparound. The two branches are exactly the copy
performed by resize_buffer (the contiguous case and the wrapped case). -/
def CircularBuffer.contents (b : CircularBuffer) : List Nat :=
  if b.position + b.length ≤ b.current_capacity then
    (b.buffer.drop b.position).take b.length
  else
    b.buffer.drop b.position ++
      b.buffer.take (b.length - (b.current_capacity - b.position))

/-- CircularBuffer::resize_buffer. A no-op when the requested capacity is
the current one; aborts (assert) when new_capacity < length; otherwise
relocates the unread bytes to the front of a fresh zero-filled storage of
the requested size and resets position to 0. The copied data, when the
buffer is non-empty, is exactly `contents`. -/
def CircularBuffer.resize_buffer (b : CircularBuffer) (new_capacity : Nat) :
    Option CircularBuffer :=
  if new_capacity = b.current_capacity then some b
  else if b.length ≤ new_capacity then
    let data := if b.length = 0 then [] else b.contents
    some { b with
      buffer := data ++ List.replicate (new_capacity - data.length) 0
      position := 0 }
  else none

/-- CircularBuffer::grow_buffer. Returns false (leaving the buffer alone)
when the hard remaining capacity is 0, else resizes to
min max_capacity (max (current_capacity * 2)
(max MINIMUM_NON_EMPTY_CAPACITY initial_capacity)) and returns true. -/
def CircularBuffer.grow_buffer (b : CircularBuffer) :
    Option (Bool × CircularBuffer) :=
  if b.remaining_mut = 0 then some (false, b)
  else
    let new_capacity := min b.max_capacity
      (max (b.current_capacity * 2)
        (max MINIMUM_NON_EMPTY_CAPACITY b.initial_capacity))
    match b.resize_buffer new_capacity with
    | none => none
    | some b1 => some (true, b1)

/-- CircularBuffer::advance_mut_impl: two asserts, then length += count. -/
def CircularBuffer.advance_mut_impl (b : CircularBuffer) (count : Nat) :
    Option CircularBuffer :=
  if count ≤ b.remaining_mut then
    if count ≤ b.remaining_mut_without_realloc then
      some { b with length := b.length + count }
    else none
  else none

/-- Buf::advance for CircularBuffer: assert count ≤ remaining, then
position = (position + count) % current_capacity (the remainder aborts
when current_capacity is 0), length -= count, and position is reset to 0
when the resulting length is 0. -/
def CircularBuffer.advance (b : CircularBuffer) (count : Nat) :
    Option CircularBuffer :=
  if count ≤ b.remaining then
    if b.current_capacity = 0 then none
    else
      let b1 := { b with
        position := (b.position + count) % b.current_capacity
        length := b.length - count }
      some (if b1.length = 0 then { b1 with position := 0 } else b1)
  else none

/-- Overlay `data` onto `buf` starting at index `start`; this is
buf[start .. start + data.len()].copy_from_slice(data), exact whenever
start + data.length ≤ buf.length (which holds at every use below). -/
def writeBytes (buf : List Nat) (start : Nat) (data : List Nat) : List Nat :=
  buf.take start ++ data ++ buf.drop (start + data.length)

/-- CircularBuffer::bytes_mut_impl. When the current allocation is full it
first tries to grow; a failed growth yields the empty span buffer[..0]
(start 0, length 0). Otherwise the span starts at
(position + length) % current_capacity and runs to
min (start + remaining_mut_without_realloc) current_capacity. The result
carries the possibly reallocated buffer together with the span start and
span length. -/
def CircularBuffer.bytes_mut_impl (b : CircularBuffer) :
    Option (CircularBuffer × Nat × Nat) :=
  match (if b.remaining_mut_without_realloc = 0
         then b.grow_buffer else some (true, b)) with
  | none => none
  | some (false, b1) => some (b1, 0, 0)
  | some (true, b1) =>
    if b1.current_capacity = 0 then none
    else
      let position_mut := (b1.position + b1.length) % b1.current_capacity
      let stop := min (position_mut + b1.remaining_mut_without_realloc)
        b1.current_capacity
      some (b1, position_mut, stop - position_mut)

/-- CircularBuffer::read_cursor. -/
def CircularBuffer.read_cursor (b : CircularBuffer) : Nat × Nat :=
  (b.position, b.length)

/-- CircularBuffer::set_read_cursor — installs the pair unconditionally. -/
def CircularBuffer.set_read_cursor (b : CircularBuffer) (cursor : Nat × Nat) :
    CircularBuffer :=
  { b with position := cursor.1, length := cursor.2 }

/-- CircularBuffer::read_exact_into_vec: assert length ≤ remaining, take
min length bytes.length from the first contiguous span, advance, then take
the remainder from the (new) first span and advance again. The inner bound
check models the slicing bytes()[..remaining], which aborts when the
request exceeds the span. -/
def CircularBuffer.read_exact_into_vec (b : CircularBuffer) (length : Nat) :
    Option (List Nat × CircularBuffer) :=
  if length ≤ b.remaining then
    let first_chunk_size := min length b.bytes.length
    let output := b.bytes.take first_chunk_size
    match b.advance first_chunk_size with
    | none => none
    | some b1 =>
      let remaining := length - first_chunk_size
      if remaining ≤ b1.bytes.length then
        match b1.advance remaining with
        | none => none
        | some b2 => some (output ++ b1.bytes.take remaining, b2)
      else none
  else none

/-- CircularBuffer::apply_soft_limit. -/
def CircularBuffer.apply_soft_limit (b : CircularBuffer) (limit : Nat) :
    Option CircularBuffer :=
  let limit := min limit b.max_capacity
  if b.remaining = 0 ∧ limit < b.current_capacity then
    some { b with buffer := [], position := 0 }
  else if b.remaining ≤ limit / 2 ∧ 2 * limit ≤ b.current_capacity then
    b.resize_buffer limit
  else
    some b

/-- std::io::Read::read for CircularBuffer: copy the first
min bytes.length output.length bytes of the first contiguous span into the
front of the output slice, advance by that count, return it. -/
def CircularBuffer.read (b : CircularBuffer) (output : List Nat) :
    Option (Nat × List Nat × CircularBuffer) :=
  let bytes := b.bytes
  let length := min bytes.length output.length
  let output := bytes.take length ++ output.drop length
  match b.advance length with
  | none => none
  | some b1 => some (length, output, b1)

/-- std::io::Write::write for CircularBuffer: obtain the writable span,
copy min span input.length bytes of the input into it, commit with
advance_mut_impl, return the count. -/
def CircularBuffer.write (b : CircularBuffer) (input : List Nat) :
    Option (Nat × CircularBuffer) :=
  match b.bytes_mut_impl with
  | none => none
  | some (b1, start, spanLen) =>
    let length := min spanLen input.length
    let b2 := { b1 with buffer := writeBytes b1.buffer start (input.take length) }
    match b2.advance_mut_impl length with
    | none => none
    | some b3 => some (length, b3)

/-- Well-formedness of a buffer state: the capacity bounds of the data
model, the canonical empty state, and the position bound. Every state
reachable by the public operations other than set_read_cursor satisfies
this. -/
def CircularBuffer.WF (b : CircularBuffer) : Prop :=
  b.length ≤ b.current_capacity ∧
  b.current_capacity ≤ b.max_capacity ∧
  (b.length = 0 → b.position = 0) ∧
  (b.position = 0 ∨ b.position < b.current_capacity)

instance (b : CircularBuffer) : Decidable b.WF := by
  unfold CircularBuffer.WF
  exact inferInstance

/-- States reachable from a fresh buffer by completed calls of the public
operations, excluding set_read_cursor (read_cursor does not mutate). A
call modelled as returning none aborted and has no successor state. -/
inductive Reachable : CircularBuffer → Prop where
  | new (c m : Nat) : Reachable (CircularBuffer.new c m)
  | read_step (b : CircularBuffer) (out : List Nat) (n : Nat)
      (out1 : List Nat) (b1 : CircularBuffer) :
      Reachable b → b.read out = some (n, out1, b1) → Reachable b1
  | write_step (b : CircularBuffer) (input : List Nat) (n : Nat)
      (b1 : CircularBuffer) :
      Reachable b → b.write input = some (n, b1) → Reachable b1
  | advance_step (b : CircularBuffer) (count : Nat) (b1 : CircularBuffer) :
      Reachable b → b.advance count = some b1 → Reachable b1
  | advance_mut_step (b : CircularBuffer) (count : Nat) (b1 : CircularBuffer) :
      Reachable b → b.advance_mut_impl count = some b1 → Reachable b1
  | bytes_mut_step (b : CircularBuffer) (b1 : CircularBuffer) (s l : Nat) :
      Reachable b → b.bytes_mut_impl = some (b1, s, l) → Reachable b1
  | grow_step (b : CircularBuffer) (flag : Bool) (b1 : CircularBuffer) :
      Reachable b → b.grow_buffer = some (flag, b1) → Reachable b1
  | soft_limit_step (b : CircularBuffer) (limit : Nat) (b1 : CircularBuffer) :
      Reachable b → b.apply_soft_limit limit = some b1 → Reachable b1
  | read_exact_step (b : CircularBuffer) (n : Nat) (v : List Nat)
      (b1 : CircularBuffer) :
      Reachable b → b.read_exact_into_vec n = some (v, b1) → Reachable b1

/-- C10: resize_buffer applied with the current capacity is a no-op for
every buffer state — capacity, position, length and stored bytes are all
unchanged, and the call completes (no abort). -/
theorem resize_buffer_self_noop (b : CircularBuffer) :
    b.resize_buffer b.current_capacity = some b := by
  unfold CircularBuffer.resize_buffer
  simp

/-- C2: read does error. On the empty buffer of current capacity 0 that
new(0, 16) returns, read evaluates (position + 0) % 0 inside advance, a
remainder with divisor zero, which aborts the program (modelled as none)
instead of returning Ok(0) as the specification promises. -/
theorem read_zero_capacity_aborts :
    (CircularBuffer.new 0 16).read (List.replicate 4 99) = none ∧
    (CircularBuffer.new 0 16).is_empty = true := by
  decide

/-- C5 counterexample: the buffer new(0, 16) has unread content [] and
0 ≤ length, yet read_exact_into_vec 0 aborts (remainder with divisor zero
in advance) instead of returning the first 0 bytes. -/
theorem read_exact_into_vec_zero_capacity_cex :
    (CircularBuffer.new 0 16).read_exact_into_vec 0 = none ∧
    0 ≤ (CircularBuffer.new 0 16).remaining := by
  decide

/-- C6 counterexample: advance 0 on the buffer new(0, 16) fails although
0 > length does not hold, refuting that advance fails only when
count > length. -/
theorem advance_zero_capacity_cex :
    (CircularBuffer.new 0 16).advance 0 = none ∧
    ¬ ((CircularBuffer.new 0 16).length < 0) := by
  decide

/-- C6 amended: advance count fails exactly when count > length or the
current capacity is 0 (remainder with divisor zero); in the remaining
cases it sets position to (position + count) % current_capacity, decreases
length by count, and resets position to 0 whenever the resulting length is
0. -/
theorem advance_cases (b : CircularBuffer) (count : Nat) :
    (b.advance count = none ↔ b.length < count ∨ b.current_capacity = 0) ∧
    (count ≤ b.length → 0 < b.current_capacity →
      b.advance count = some { b with
        position := if b.length - count = 0 then 0
          else (b.position + count) % b.current_capacity,
        length := b.length - count }) := by
  unfold CircularBuffer.advance CircularBuffer.remaining
  refine ⟨⟨?_, ?_⟩, ?_⟩
  · intro h
    by_cases h1 : count ≤ b.length
    · by_cases h2 : b.current_capacity = 0
      · right; exact h2
      · simp [h1, h2] at h
    · left; omega
  · intro h
    rcases h with h | h
    · have h1 : ¬ (count ≤ b.length) := by omega
      simp [h1]
    · by_cases h1 : count ≤ b.length <;> simp [h1, h]
  · intro h1 h2
    have h2' : ¬ (b.current_capacity = 0) := by omega
    simp only [h1, if_true, h2', if_false]
    by_cases h3 : b.length - count = 0 <;> simp [h3]

/-- C6 witness: for the concrete well-formed state with storage
[1,2,3,4], position 1 and length 2, advance 1 succeeds and moves the
cursor as characterized. -/
theorem advance_cases_witness :
    (⟨[1,2,3,4], 1, 2, 8, 0⟩ : CircularBuffer).advance 1
      = some { (⟨[1,2,3,4], 1, 2, 8, 0⟩ : CircularBuffer) with
          position := if 2 - 1 = 0 then 0 else (1 + 1) % 4,
          length := 2 - 1 } :=
  (advance_cases ⟨[1,2,3,4], 1, 2, 8, 0⟩ 1).2 (by decide) (by decide)

/-- C9: set_read_cursor performs no validation: it installs exactly the
given pair, touching nothing else; restoring the current cursor with no
intervening mutation is the identity; and a snapshot restored after a
capacity change can install an out-of-range cursor, shown by a concrete
run whose final state has length 4 but capacity 0. -/
theorem set_read_cursor_unchecked (b : CircularBuffer) (p l : Nat) :
    (b.set_read_cursor (p, l)).position = p ∧
    (b.set_read_cursor (p, l)).length = l ∧
    (b.set_read_cursor (p, l)).buffer = b.buffer ∧
    (b.set_read_cursor (p, l)).max_capacity = b.max_capacity ∧
    (b.set_read_cursor (p, l)).initial_capacity = b.initial_capacity ∧
    b.set_read_cursor b.read_cursor = b ∧
    ((((CircularBuffer.new 4 8).write [1,1,1,1]).bind fun r1 =>
        (r1.2.advance 4).bind fun b2 =>
          (b2.apply_soft_limit 0).map fun b3 =>
            b3.set_read_cursor r1.2.read_cursor)
      = some { buffer := [], position := 0, length := 4,
               max_capacity := 8, initial_capacity := 4 } ∧
     ¬ ((⟨[], 0, 4, 8, 4⟩ : CircularBuffer).length
          ≤ (⟨[], 0, 4, 8, 4⟩ : CircularBuffer).current_capacity)) := by
  refine ⟨rfl, rfl, rfl, rfl, rfl, rfl, by decide, by decide⟩

/-- C1 counterexample: a reachable wrapped state (capacity 8, position 1,
length 8) read with an output slice of length 8 returns 7 bytes, not
min(output.len(), length) = 8. -/
theorem read_wrapped_short_count_cex :
    (((CircularBuffer.new 0 16).write [0,1,2,3,4,5,6,7]).bind fun r1 =>
      (r1.2.advance 1).bind fun b2 =>
        (b2.write [8]).bind fun r3 =>
          (r3.2.read [99,99,99,99,99,99,99,99]).map fun r4 =>
            (r4.1, min 8 r3.2.length))
    = some (7, 8) ∧ (7 : Nat) ≠ 8 := by
  decide

/-- C8 counterexample: the operation sequence new(0,16), write 8 bytes,
write 8 bytes, snapshot the cursor, advance 16, apply_soft_limit 8
(deallocating the storage), restore the snapshot — every call completes,
and the final state has length 16 but current capacity 0, violating
length ≤ current_capacity. -/
theorem invariant_broken_by_stale_cursor_cex :
    (((CircularBuffer.new 0 16).write (List.replicate 8 1)).bind fun r1 =>
      (r1.2.write (List.replicate 8 1)).bind fun r2 =>
        (r2.2.advance 16).bind fun b3 =>
          (b3.apply_soft_limit 8).map fun b4 =>
            b4.set_read_cursor r2.2.read_cursor)
    = some { buffer := [], position := 0, length := 16,
             max_capacity := 16, initial_capacity := 0 } ∧
    ¬ ((⟨[], 0, 16, 16, 0⟩ : CircularBuffer).length
         ≤ (⟨[], 0, 16, 16, 0⟩ : CircularBuffer).current_capacity) := by
  decide

theorem wf_fields (b : CircularBuffer) (h : b.WF) :
    b.length ≤ b.buffer.length ∧ b.buffer.length ≤ b.max_capacity ∧
    (b.length = 0 → b.position = 0) ∧ b.position ≤ b.buffer.length ∧
    (b.position + b.length ≤ b.buffer.length ∨ b.position < b.buffer.length) := by
  obtain ⟨h1, h2, h3, h4⟩ := h
  simp only [CircularBuffer.current_capacity] at h1 h2 h4
  rcases h4 with h4 | h4 <;> refine ⟨h1, h2, h3, by omega, by omega⟩

theorem contents_length (b : CircularBuffer) (h : b.WF) :
    b.contents.length = b.length := by
  obtain ⟨h1, h2, h3, h4, h5⟩ := wf_fields b h
  unfold CircularBuffer.contents
  simp only [CircularBuffer.current_capacity]
  split <;> rename_i hb <;>
    simp only [List.length_take, List.length_drop, List.length_append] <;> omega

theorem bytes_length (b : CircularBuffer) (h : b.WF) :
    b.bytes.length = min b.length (b.buffer.length - b.position) := by
  obtain ⟨h1, h2, h3, h4, h5⟩ := wf_fields b h
  unfold CircularBuffer.bytes
  simp only [CircularBuffer.current_capacity, List.length_take, List.length_drop]
  omega

theorem bytes_length_le (b : CircularBuffer) (h : b.WF) :
    b.bytes.length ≤ b.length := by
  rw [bytes_length b h]; omega

theorem contents_eq_bytes_append (b : CircularBuffer) (h : b.WF) :
    b.contents = b.bytes ++ b.buffer.take (b.length - b.bytes.length) := by
  obtain ⟨h1, h2, h3, h4, h5⟩ := wf_fields b h
  have hbl := bytes_length b h
  unfold CircularBuffer.contents CircularBuffer.bytes
  simp only [CircularBuffer.current_capacity] at *
  split <;> rename_i hb
  · have he : min (b.position + b.length) b.buffer.length - b.position = b.length := by
      omega
    rw [he]
    simp only [List.length_take, List.length_drop]
    have hz : b.length - min b.length (b.buffer.length - b.position) = 0 := by omega
    rw [hz]
    simp
  · have he : min (b.position + b.length) b.buffer.length - b.position
        = b.buffer.length - b.position := by omega
    rw [he]
    have ht : (b.buffer.drop b.position).take (b.buffer.length - b.position)
        = b.buffer.drop b.position := by
      apply List.take_of_length_le
      simp [List.length_drop]
    rw [ht]
    simp only [List.length_drop]

theorem contents_take_eq_bytes_take (b : CircularBuffer) (h : b.WF) (n : Nat)
    (hn : n ≤ b.bytes.length) :
    b.contents.take n = b.bytes.take n := by
  rw [contents_eq_bytes_append b h, List.take_append_eq_append_take]
  have hz : n - b.bytes.length = 0 := by omega
  rw [hz]
  simp

theorem writeBytes_length (buf : List Nat) (s : Nat) (d : List Nat)
    (h : s + d.length ≤ buf.length) :
    (writeBytes buf s d).length = buf.length := by
  unfold writeBytes
  simp only [List.length_append, List.length_take, List.length_drop]
  omega

theorem advance_spec (b : CircularBuffer) (count : Nat) (hwf : b.WF)
    (hcap : 0 < b.current_capacity) (hcount : count ≤ b.length) :
    ∃ b1, b.advance count = some b1 ∧ b1.WF ∧
      b1.buffer = b.buffer ∧
      b1.position = (if b.length - count = 0 then 0
        else (b.position + count) % b.buffer.length) ∧
      b1.length = b.length - count ∧
      b1.max_capacity = b.max_capacity ∧
      b1.initial_capacity = b.initial_capacity ∧
      b1.contents = b.contents.drop count := by
  obtain ⟨h1, h2, h3, h4, h5⟩ := wf_fields b hwf
  simp only [CircularBuffer.current_capacity] at hcap
  have hclen := contents_length b hwf
  unfold CircularBuffer.advance CircularBuffer.remaining
  simp only [CircularBuffer.current_capacity]
  rw [if_pos hcount, if_neg (by omega : ¬ (b.buffer.length = 0))]
  by_cases hz : b.length - count = 0
  · rw [if_pos hz]
    refine ⟨_, rfl, ?_, rfl, by rw [if_pos hz], hz ▸ rfl, rfl, rfl, ?_⟩
    · refine ⟨by simp [CircularBuffer.current_capacity]; omega,
        by simp [CircularBuffer.current_capacity]; omega, fun _ => rfl, Or.inl rfl⟩
    · have hd : b.contents.drop count = [] :=
        List.drop_of_length_le (by omega)
      rw [hd]
      simp [CircularBuffer.contents, CircularBuffer.current_capacity, hz]
  · rw [if_neg hz]
    have hlenpos : 0 < b.length := by omega
    have hcountlt : count < b.length := by omega
    have hposlt : b.position < b.buffer.length := by omega
    have hmodlt : (b.position + count) % b.buffer.length < b.buffer.length :=
      Nat.mod_lt _ hcap
    refine ⟨_, rfl, ?_, rfl, by rw [if_neg hz], rfl, rfl, rfl, ?_⟩
    · refine ⟨by simp [CircularBuffer.current_capacity]; omega,
        by simp [CircularBuffer.current_capacity]; omega,
        fun h => absurd h hz, Or.inr (by simpa [CircularBuffer.current_capacity])⟩
    · -- contents equation
      unfold CircularBuffer.contents
      simp only [CircularBuffer.current_capacity]
      rcases Nat.lt_or_ge (b.position + b.length) (b.buffer.length + 1) with hw | hw
      · -- case A : pos + len ≤ cap, hence pos + count < cap
        have hA : b.position + count < b.buffer.length := by omega
        have hpm : (b.position + count) % b.buffer.length = b.position + count :=
          Nat.mod_eq_of_lt hA
        rw [hpm, if_pos (by omega), if_pos (by omega), List.drop_take,
          List.drop_drop]
      · rcases Nat.lt_or_ge (b.position + count) (b.buffer.length) with hB | hC
        · -- case B : wrapped, pos + count < cap
          have hpm : (b.position + count) % b.buffer.length = b.position + count :=
            Nat.mod_eq_of_lt hB
          rw [hpm, if_neg (by omega), if_neg (by omega),
            List.drop_append_eq_append_drop]
          simp only [List.length_drop]
          have hz2 : count - (b.buffer.length - b.position) = 0 := by omega
          rw [hz2, List.drop_drop, List.drop_zero]
          congr 1
          congr 1
          omega
        · -- case C : wrapped, pos + count ≥ cap
          have hpm : (b.position + count) % b.buffer.length
              = b.position + count - b.buffer.length := by
            rw [Nat.mod_eq_sub_mod hC]
            exact Nat.mod_eq_of_lt (by omega)
          rw [hpm, if_pos (by omega), if_neg (by omega),
            List.drop_append_eq_append_drop, List.drop_drop]
          simp only [List.length_drop]
          have hnil : List.drop (b.position + count) b.buffer = [] :=
            List.drop_of_length_le hC
          rw [hnil, List.nil_append, List.drop_take]
          congr 1
          · omega
          · congr 1
            omega

theorem contents_of_front (l : List Nat) (L m i : Nat) (h : L ≤ l.length) :
    CircularBuffer.contents ⟨l, 0, L, m, i⟩ = l.take L := by
  unfold CircularBuffer.contents
  simp only [CircularBuffer.current_capacity]
  rw [if_pos (by omega)]
  rw [List.drop_zero]

theorem resize_spec (b : CircularBuffer) (c : Nat) (hwf : b.WF)
    (hlen : b.length ≤ c) (hmax : c ≤ b.max_capacity) :
    ∃ b1, b.resize_buffer c = some b1 ∧ b1.WF ∧
      b1.contents = b.contents ∧
      b1.length = b.length ∧ b1.max_capacity = b.max_capacity ∧
      b1.initial_capacity = b.initial_capacity ∧
      b1.current_capacity = c := by
  obtain ⟨h1, h2, h3, h4, h5⟩ := wf_fields b hwf
  have hclen := contents_length b hwf
  unfold CircularBuffer.resize_buffer
  by_cases he : c = b.current_capacity
  · rw [if_pos he]
    exact ⟨b, rfl, hwf, rfl, rfl, rfl, rfl, he.symm⟩
  · rw [if_neg he, if_pos hlen]
    have hdata : (if b.length = 0 then [] else b.contents) = b.contents := by
      split <;> rename_i hz
      · unfold CircularBuffer.contents
        rw [if_pos (by simp only [CircularBuffer.current_capacity]; omega)]
        rw [hz, h3 hz]
        simp
      · rfl
    rw [hdata]
    dsimp only
    have hblen : (b.contents ++ List.replicate (c - b.contents.length) 0).length
        = c := by
      simp only [List.length_append, List.length_replicate]
      omega
    have hcap : CircularBuffer.current_capacity
        ⟨b.contents ++ List.replicate (c - b.contents.length) 0, 0,
          b.length, b.max_capacity, b.initial_capacity⟩ = c := by
      simp only [CircularBuffer.current_capacity]
      exact hblen
    refine ⟨_, rfl, ?_, ?_, rfl, rfl, rfl, hcap⟩
    · refine ⟨?_, ?_, fun _ => rfl, Or.inl rfl⟩
      · rw [hcap]; exact hlen
      · rw [hcap]; exact hmax
    · rw [contents_of_front _ _ _ _ (by rw [hblen]; exact hlen)]
      rw [List.take_append_eq_append_take]
      rw [List.take_of_length_le (by omega)]
      have hz : b.length - b.contents.length = 0 := by omega
      rw [hz]
      simp

theorem grow_spec (b : CircularBuffer) (hwf : b.WF) :
    (b.remaining_mut = 0 → b.grow_buffer = some (false, b)) ∧
    (0 < b.remaining_mut →
      ∃ b1, b.grow_buffer = some (true, b1) ∧ b1.WF ∧
        b1.contents = b.contents ∧ b1.length = b.length ∧
        b1.max_capacity = b.max_capacity ∧
        b1.initial_capacity = b.initial_capacity ∧
        b1.current_capacity = min b.max_capacity
          (max (b.current_capacity * 2)
            (max MINIMUM_NON_EMPTY_CAPACITY b.initial_capacity)) ∧
        b.length < b1.current_capacity) := by
  obtain ⟨h1, h2, h3, h4, h5⟩ := wf_fields b hwf
  constructor
  · intro h
    unfold CircularBuffer.grow_buffer
    rw [if_pos h]
  · intro h
    have hrm : b.length < b.max_capacity := by
      unfold CircularBuffer.remaining_mut at h
      omega
    have hlt : b.length < min b.max_capacity
        (max (b.current_capacity * 2)
          (max MINIMUM_NON_EMPTY_CAPACITY b.initial_capacity)) := by
      simp only [CircularBuffer.current_capacity, MINIMUM_NON_EMPTY_CAPACITY]
      omega
    obtain ⟨b1, heq, hwf1, hco, hle, hma, hin, hca⟩ :=
      resize_spec b (min b.max_capacity
        (max (b.current_capacity * 2)
          (max MINIMUM_NON_EMPTY_CAPACITY b.initial_capacity)))
        hwf (by omega) (Nat.min_le_left _ _)
    refine ⟨b1, ?_, hwf1, hco, hle, hma, hin, hca, by omega⟩
    unfold CircularBuffer.grow_buffer
    rw [if_neg (by omega)]
    simp only [heq]

theorem advance_mut_spec (b : CircularBuffer) (count : Nat)
    (hh : count ≤ b.remaining_mut)
    (hs : count ≤ b.remaining_mut_without_realloc) :
    b.advance_mut_impl count = some { b with length := b.length + count } := by
  unfold CircularBuffer.advance_mut_impl
  rw [if_pos hh, if_pos hs]

theorem bytes_mut_spec (b : CircularBuffer) (hwf : b.WF) :
    ∃ b1 s n, b.bytes_mut_impl = some (b1, s, n) ∧ b1.WF ∧
      b1.contents = b.contents ∧ b1.length = b.length ∧
      b1.max_capacity = b.max_capacity ∧
      b1.initial_capacity = b.initial_capacity ∧
      (b1.current_capacity = b.current_capacity ∨
        b.remaining_mut_without_realloc = 0) ∧
      (b.remaining_mut = 0 → b1 = b ∧ n = 0) ∧
      (0 < b.remaining_mut →
        0 < b1.current_capacity ∧
        s = (b1.position + b1.length) % b1.current_capacity ∧
        n = min (s + b1.remaining_mut_without_realloc) b1.current_capacity - s ∧
        0 < n ∧ n ≤ b1.current_capacity - b1.length ∧
        s + n ≤ b1.current_capacity) := by
  obtain ⟨h1, h2, h3, h4, h5⟩ := wf_fields b hwf
  unfold CircularBuffer.bytes_mut_impl
  by_cases hfull : b.remaining_mut_without_realloc = 0
  · rw [if_pos hfull]
    by_cases hm : b.remaining_mut = 0
    · have hg := (grow_spec b hwf).1 hm
      rw [hg]
      exact ⟨b, 0, 0, rfl, hwf, rfl, rfl, rfl, rfl, Or.inl rfl,
        fun _ => ⟨rfl, rfl⟩, fun hc => absurd hm (by omega)⟩
    · obtain ⟨b1, hg, hwf1, hco, hle, hma, hin, hca, hgt⟩ :=
        (grow_spec b hwf).2 (by omega)
      rw [hg]
      dsimp only
      have hcap1 : 0 < b1.current_capacity := by omega
      rw [if_neg (show ¬ (b1.current_capacity = 0) by omega)]
      obtain ⟨g1, g2, g3, g4, g5⟩ := wf_fields b1 hwf1
      have hslt : (b1.position + b1.length) % b1.current_capacity
          < b1.current_capacity := Nat.mod_lt _ hcap1
      refine ⟨b1, _, _, rfl, hwf1, hco, hle, hma, hin, Or.inr hfull,
        fun hmm => absurd hmm hm, ?_⟩
      intro _
      refine ⟨hcap1, rfl, rfl, ?_, ?_, ?_⟩ <;>
        (simp only [CircularBuffer.remaining_mut_without_realloc,
          CircularBuffer.current_capacity] at *; omega)
  · rw [if_neg hfull]
    dsimp only
    have hcap0 : 0 < b.current_capacity := by
      simp only [CircularBuffer.remaining_mut_without_realloc,
        CircularBuffer.current_capacity] at *
      omega
    rw [if_neg (show ¬ (b.current_capacity = 0) by omega)]
    have hslt : (b.position + b.length) % b.current_capacity
        < b.current_capacity := Nat.mod_lt _ hcap0
    refine ⟨b, _, _, rfl, hwf, rfl, rfl, rfl, rfl, Or.inl rfl, ?_, ?_⟩
    · intro hmm
      exfalso
      simp only [CircularBuffer.remaining_mut,
        CircularBuffer.remaining_mut_without_realloc,
        CircularBuffer.current_capacity] at *
      omega
    · intro _
      refine ⟨hcap0, rfl, rfl, ?_, ?_, ?_⟩ <;>
        (simp only [CircularBuffer.remaining_mut_without_realloc,
          CircularBuffer.current_capacity] at *; omega)

theorem contents_write_span (b : CircularBuffer) (data : List Nat)
    (hwf : b.WF) (hcap : 0 < b.current_capacity)
    (hn : data.length ≤
      min ((b.position + b.length) % b.current_capacity
            + b.remaining_mut_without_realloc) b.current_capacity
          - (b.position + b.length) % b.current_capacity) :
    CircularBuffer.contents { b with
        buffer := writeBytes b.buffer
          ((b.position + b.length) % b.current_capacity) data,
        length := b.length + data.length }
      = b.contents ++ data := by
  obtain ⟨h1, h2, h3, h4, h5⟩ := wf_fields b hwf
  simp only [CircularBuffer.remaining_mut_without_realloc,
    CircularBuffer.current_capacity] at hn hcap ⊢
  rcases Nat.eq_zero_or_pos data.length with hn0 | hnpos
  · have hdnil : data = [] := List.length_eq_zero.mp hn0
    subst hdnil
    have hwb : writeBytes b.buffer ((b.position + b.length) % b.buffer.length) []
        = b.buffer := by
      unfold writeBytes
      simp
    rw [hwb]
    show CircularBuffer.contents b = b.contents ++ []
    simp
  · rcases Nat.lt_or_ge (b.position + b.length) b.buffer.length with hi | hge
    · -- case i : pos + len < cap, no wraparound before or after
      have hpm : (b.position + b.length) % b.buffer.length
          = b.position + b.length := Nat.mod_eq_of_lt hi
      rw [hpm] at hn ⊢
      have hnle : b.position + b.length + data.length ≤ b.buffer.length := by
        omega
      have hwl : (writeBytes b.buffer (b.position + b.length) data).length
          = b.buffer.length := writeBytes_length _ _ _ hnle
      unfold CircularBuffer.contents
      dsimp only
      simp only [CircularBuffer.current_capacity]
      rw [hwl]
      rw [if_pos (by omega), if_pos (by omega)]
      unfold writeBytes
      rw [List.drop_append_eq_append_drop, List.drop_append_eq_append_drop]
      simp only [List.length_take, List.length_append]
      rw [show b.position - min (b.position + b.length) b.buffer.length = 0
          from by omega]
      rw [show b.position
          - (min (b.position + b.length) b.buffer.length + data.length) = 0
          from by omega]
      rw [List.drop_zero, List.drop_zero]
      rw [List.drop_take]
      rw [show b.position + b.length - b.position = b.length from by omega]
      rw [List.take_append_eq_append_take, List.take_append_eq_append_take]
      simp only [List.length_take, List.length_drop, List.length_append]
      rw [List.take_take]
      rw [show min (b.length + data.length) b.length = b.length from by omega]
      rw [show b.length + data.length
          - min b.length (b.buffer.length - b.position) = data.length
          from by omega]
      rw [List.take_length]
      rw [show b.length + data.length
          - (min b.length (b.buffer.length - b.position) + data.length) = 0
          from by omega]
      rw [List.take_zero, List.append_nil]
    · rcases Nat.lt_or_ge b.position b.buffer.length with hplt | hple
      · rcases Nat.eq_or_lt_of_le hge with heq | hgt
        · -- case ii : pos + len = cap exactly, the span starts at index 0
          have hpm : (b.position + b.length) % b.buffer.length = 0 := by
            rw [← heq]
            exact Nat.mod_self _
          rw [hpm] at hn ⊢
          have hnle : data.length ≤ b.position := by omega
          have hwl : (writeBytes b.buffer 0 data).length = b.buffer.length := by
            apply writeBytes_length
            omega
          unfold CircularBuffer.contents
          dsimp only
          simp only [CircularBuffer.current_capacity]
          rw [hwl]
          rw [if_neg (by omega), if_pos (by omega)]
          unfold writeBytes
          simp only [List.take_zero, List.nil_append, Nat.zero_add]
          rw [show b.length + data.length - (b.buffer.length - b.position)
              = data.length from by omega]
          rw [List.drop_append_eq_append_drop]
          rw [List.drop_of_length_le hnle, List.nil_append, List.drop_drop]
          rw [show data.length + (b.position - data.length) = b.position
              from by omega]
          rw [List.take_append_eq_append_take, List.take_length, Nat.sub_self,
            List.take_zero, List.append_nil]
          rw [List.take_of_length_le
            (by simp only [List.length_drop]; omega)]
        · -- case iii : pos + len > cap, wrapped data, span sits before position
          have hpm : (b.position + b.length) % b.buffer.length
              = b.position + b.length - b.buffer.length := by
            rw [Nat.mod_eq_sub_mod hge]
            exact Nat.mod_eq_of_lt (by omega)
          rw [hpm] at hn ⊢
          have hnle : b.position + b.length - b.buffer.length + data.length
              ≤ b.position := by omega
          have hwl : (writeBytes b.buffer
              (b.position + b.length - b.buffer.length) data).length
              = b.buffer.length := writeBytes_length _ _ _ (by omega)
          unfold CircularBuffer.contents
          dsimp only
          simp only [CircularBuffer.current_capacity]
          rw [hwl]
          rw [if_neg (by omega), if_neg (by omega)]
          rw [show b.length + data.length - (b.buffer.length - b.position)
              = b.position + b.length - b.buffer.length + data.length
              from by omega]
          unfold writeBytes
          rw [List.drop_append_eq_append_drop, List.drop_append_eq_append_drop]
          simp only [List.length_take, List.length_append]
          rw [show min (b.position + b.length - b.buffer.length)
              b.buffer.length = b.position + b.length - b.buffer.length
              from by omega]
          rw [List.drop_of_length_le (show
              (b.buffer.take (b.position + b.length - b.buffer.length)).length
                ≤ b.position from by simp only [List.length_take]; omega)]
          rw [List.drop_of_length_le (show data.length
              ≤ b.position - (b.position + b.length - b.buffer.length)
              from by omega)]
          rw [List.nil_append, List.nil_append, List.drop_drop]
          rw [show b.position + b.length - b.buffer.length + data.length
              + (b.position - (b.position + b.length - b.buffer.length
                  + data.length)) = b.position from by omega]
          rw [List.take_append_eq_append_take, List.take_append_eq_append_take]
          simp only [List.length_take, List.length_append]
          rw [show min (b.position + b.length - b.buffer.length)
              b.buffer.length = b.position + b.length - b.buffer.length
              from by omega]
          rw [List.take_take]
          rw [show min (b.position + b.length - b.buffer.length + data.length)
              (b.position + b.length - b.buffer.length)
              = b.position + b.length - b.buffer.length from by omega]
          rw [show b.position + b.length - b.buffer.length + data.length
              - (b.position + b.length - b.buffer.length) = data.length
              from by omega]
          rw [List.take_length]
          rw [show b.position + b.length - b.buffer.length + data.length
              - (b.position + b.length - b.buffer.length + data.length) = 0
              from by omega]
          rw [List.take_zero, List.append_nil]
          rw [show b.length - (b.buffer.length - b.position)
              = b.position + b.length - b.buffer.length from by omega]
          rw [List.append_assoc]
      · -- pos = cap impossible unless pos = 0 and len > cap
        exfalso
        omega

theorem write_spec (b : CircularBuffer) (input : List Nat) (hwf : b.WF) :
    ∃ n b1, b.write input = some (n, b1) ∧ b1.WF ∧
      b1.contents = b.contents ++ input.take n ∧
      b1.length = b.length + n ∧
      b1.max_capacity = b.max_capacity ∧
      b1.initial_capacity = b.initial_capacity ∧
      (b1.current_capacity = b.current_capacity ∨
        b.remaining_mut_without_realloc = 0) ∧
      (b.remaining_mut = 0 → n = 0 ∧ b1 = b) ∧
      (0 < b.remaining_mut → 0 < input.length → 0 < n) ∧
      (∃ bm s spanLen, b.bytes_mut_impl = some (bm, s, spanLen) ∧
        n = min spanLen input.length) := by
  obtain ⟨bm, s, spanLen, hbm, hwfm, hcom, hlem, hmam, hinm, hcapm, hfull,
    hspan⟩ := bytes_mut_spec b hwf
  unfold CircularBuffer.write
  rw [hbm]
  dsimp only
  by_cases hm : b.remaining_mut = 0
  · obtain ⟨hbmb, hsp0⟩ := hfull hm
    rw [hbmb, hsp0] at hbm
    rw [hbmb, hsp0]
    refine ⟨0, b, ?_, hwf, by simp, by simp, rfl, rfl, Or.inl rfl,
      fun _ => ⟨rfl, rfl⟩, fun hc _ => absurd hm (by omega),
      ⟨b, s, 0, rfl, by simp⟩⟩
    rw [Nat.zero_min, List.take_zero]
    have hwb : writeBytes b.buffer s [] = b.buffer := by
      unfold writeBytes
      simp
    rw [hwb]
    rw [advance_mut_spec { b with buffer := b.buffer } 0
      (Nat.zero_le _) (Nat.zero_le _)]
    rfl
  · obtain ⟨hcap1, hs, hn, hnpos, hnle, hsn⟩ := hspan (by omega)
    obtain ⟨m1, m2, m3, m4, m5⟩ := wf_fields bm hwfm
    set nw := min spanLen input.length with hnwd
    have hnw : nw ≤ spanLen := Nat.min_le_left _ _
    set d := input.take nw with hdd
    have hdl : d.length = nw := by
      rw [hdd]
      simp only [List.length_take]
      omega
    set buf2 := writeBytes bm.buffer s d with hbuf2
    have hwbl : buf2.length = bm.buffer.length := by
      rw [hbuf2]
      apply writeBytes_length
      rw [hdl]
      simp only [CircularBuffer.current_capacity] at hsn
      omega
    have hA : nw ≤ CircularBuffer.remaining_mut { bm with buffer := buf2 } := by
      simp only [CircularBuffer.remaining_mut]
      simp only [CircularBuffer.remaining_mut_without_realloc,
        CircularBuffer.current_capacity] at hnle
      omega
    have hB : nw ≤ CircularBuffer.remaining_mut_without_realloc
        { bm with buffer := buf2 } := by
      simp only [CircularBuffer.remaining_mut_without_realloc,
        CircularBuffer.current_capacity] at hnle ⊢
      rw [hwbl]
      omega
    rw [advance_mut_spec _ _ hA hB]
    have hcw := contents_write_span bm d hwfm hcap1 (by
      rw [hdl, ← hs, ← hn]
      exact hnw)
    rw [hdl] at hcw
    rw [← hs] at hcw
    rw [← hbuf2] at hcw
    refine ⟨nw, _, rfl, ?_, ?_, ?_, hmam, hinm, ?_,
      ?_, ?_, ⟨bm, s, spanLen, rfl, rfl⟩⟩
    · refine ⟨?_, ?_, ?_, ?_⟩
      · simp only [CircularBuffer.current_capacity]
        rw [hwbl]
        simp only [CircularBuffer.remaining_mut_without_realloc,
          CircularBuffer.current_capacity] at hnle
        omega
      · simp only [CircularBuffer.current_capacity]
        rw [hwbl]
        exact m2
      · intro hz
        simp only at hz
        have : bm.length = 0 := by omega
        exact m3 this
      · simp only [CircularBuffer.current_capacity]
        rw [hwbl]
        rcases Nat.eq_zero_or_pos bm.position with hp | hp
        · exact Or.inl hp
        · right
          rcases m5 with m5 | m5 <;> omega
    · rw [hcw, hcom]
    · simp only
      rw [hlem]
    · simp only [CircularBuffer.current_capacity]
      rw [hwbl]
      rcases hcapm with hc | hc
      · exact Or.inl hc
      · exact Or.inr hc
    · intro hmm
      exact absurd hmm hm
    · intro _ hip
      omega

theorem read_spec (b : CircularBuffer) (output : List Nat) (hwf : b.WF)
    (hcap : 0 < b.current_capacity) :
    ∃ b1, b.read output = some (min b.bytes.length output.length,
        b.contents.take (min b.bytes.length output.length)
          ++ output.drop (min b.bytes.length output.length), b1) ∧
      b1.WF ∧
      b1.contents = b.contents.drop (min b.bytes.length output.length) ∧
      b1.length = b.length - min b.bytes.length output.length ∧
      b1.max_capacity = b.max_capacity ∧
      b1.current_capacity = b.current_capacity := by
  have hble := bytes_length_le b hwf
  have hmin : min b.bytes.length output.length ≤ b.length := by omega
  obtain ⟨b1, ha, hwf1, hbuf, hpos1, hlen1, hmax1, hini1, hcon1⟩ :=
    advance_spec b (min b.bytes.length output.length) hwf hcap hmin
  unfold CircularBuffer.read
  dsimp only
  rw [ha]
  refine ⟨b1, ?_, hwf1, hcon1, hlen1, hmax1,
    by simp only [CircularBuffer.current_capacity, hbuf]⟩
  rw [contents_take_eq_bytes_take b hwf _ (Nat.min_le_left _ _)]

theorem read_exact_spec (b : CircularBuffer) (n : Nat) (hwf : b.WF)
    (hcap : 0 < b.current_capacity) (hn : n ≤ b.length) :
    ∃ b2, b.read_exact_into_vec n = some (b.contents.take n, b2) ∧
      b2.WF ∧ b2.contents = b.contents.drop n ∧
      b2.length = b.length - n ∧ b2.max_capacity = b.max_capacity ∧
      b2.current_capacity = b.current_capacity := by
  have hble := bytes_length_le b hwf
  have hblen := bytes_length b hwf
  obtain ⟨h1, h2, h3, h4, h5⟩ := wf_fields b hwf
  have hfcle : min n b.bytes.length ≤ b.length := by omega
  obtain ⟨b1, ha1, hwf1, hbuf1, hpos1, hlen1, hmax1, hini1, hcon1⟩ :=
    advance_spec b (min n b.bytes.length) hwf hcap hfcle
  have hcap1 : 0 < b1.current_capacity := by
    simp only [CircularBuffer.current_capacity, hbuf1]
    simp only [CircularBuffer.current_capacity] at hcap
    exact hcap
  unfold CircularBuffer.read_exact_into_vec
  rw [if_pos (show n ≤ b.remaining from hn)]
  dsimp only
  rw [ha1]
  dsimp only
  by_cases hcase : n ≤ b.bytes.length
  · -- the whole request fits in the first contiguous span
    have hfc : min n b.bytes.length = n := by omega
    have hz : n - min n b.bytes.length = 0 := by omega
    rw [hz]
    rw [if_pos (Nat.zero_le _)]
    obtain ⟨b2, ha2, hwf2, hbuf2, hpos2, hlen2, hmax2, hini2, hcon2⟩ :=
      advance_spec b1 0 hwf1 hcap1 (Nat.zero_le _)
    rw [ha2]
    dsimp only
    refine ⟨b2, ?_, hwf2, ?_, ?_, ?_, ?_⟩
    · rw [List.take_zero, List.append_nil, hfc,
        contents_take_eq_bytes_take b hwf n hcase]
    · rw [hcon2, hcon1, List.drop_drop, hfc]
      simp
    · rw [hlen2, hlen1, hfc]
      omega
    · rw [hmax2, hmax1]
    · simp only [CircularBuffer.current_capacity, hbuf2, hbuf1]
  · -- the request wraps: drain the first span, then read the remainder
    have hfc : min n b.bytes.length = b.bytes.length := by omega
    have hlen1p : 0 < b.length - min n b.bytes.length := by omega
    have hpos1v : b1.position = 0 := by
      rw [hpos1, if_neg (by omega)]
      have hwrap : b.bytes.length = b.buffer.length - b.position := by omega
      rw [hfc, hwrap]
      rw [show b.position + (b.buffer.length - b.position) = b.buffer.length
        from by omega]
      exact Nat.mod_self _
    have hb1len : b1.bytes.length = b.length - min n b.bytes.length := by
      rw [bytes_length b1 hwf1, hpos1v, hlen1]
      simp only [CircularBuffer.current_capacity, hbuf1]
      simp only [CircularBuffer.current_capacity] at hcap
      omega
    rw [if_pos (by rw [hb1len]; omega)]
    obtain ⟨b2, ha2, hwf2, hbuf2, hpos2, hlen2, hmax2, hini2, hcon2⟩ :=
      advance_spec b1 (n - min n b.bytes.length) hwf1 hcap1
        (by rw [hlen1]; omega)
    rw [ha2]
    dsimp only
    refine ⟨b2, ?_, hwf2, ?_, ?_, ?_, ?_⟩
    · have e1 : b.bytes.take (min n b.bytes.length)
          = b.contents.take (min n b.bytes.length) :=
        (contents_take_eq_bytes_take b hwf _ (by omega)).symm
      have e2 : b1.bytes.take (n - min n b.bytes.length)
          = b1.contents.take (n - min n b.bytes.length) :=
        (contents_take_eq_bytes_take b1 hwf1 _ (by rw [hb1len]; omega)).symm
      rw [e1, e2, hcon1, ← List.take_add]
      rw [show min n b.bytes.length + (n - min n b.bytes.length) = n
        from by omega]
    · rw [hcon2, hcon1, List.drop_drop]
      rw [show min n b.bytes.length + (n - min n b.bytes.length) = n
        from by omega]
    · rw [hlen2, hlen1]
      omega
    · rw [hmax2, hmax1]
    · simp only [CircularBuffer.current_capacity, hbuf2, hbuf1]

theorem advance_some_inv (b b1 : CircularBuffer) (count : Nat)
    (h : b.advance count = some b1) :
    count ≤ b.length ∧ 0 < b.current_capacity := by
  unfold CircularBuffer.advance CircularBuffer.remaining at h
  by_cases h1 : count ≤ b.length
  · rw [if_pos h1] at h
    by_cases h2 : b.current_capacity = 0
    · rw [if_pos h2] at h
      exact absurd h (by simp)
    · exact ⟨h1, by omega⟩
  · rw [if_neg h1] at h
    exact absurd h (by simp)

theorem advance_wf (b b1 : CircularBuffer) (count : Nat) (hwf : b.WF)
    (h : b.advance count = some b1) : b1.WF := by
  obtain ⟨hc, hcap⟩ := advance_some_inv b b1 count h
  obtain ⟨b2, heq, hwf2, _⟩ := advance_spec b count hwf hcap hc
  rw [heq] at h
  simp only [Option.some.injEq] at h
  rw [← h]
  exact hwf2

theorem resize_wf (b b1 : CircularBuffer) (c : Nat) (hwf : b.WF)
    (hc : c ≤ b.max_capacity) (h : b.resize_buffer c = some b1) : b1.WF := by
  by_cases he : c = b.current_capacity
  · unfold CircularBuffer.resize_buffer at h
    rw [if_pos he] at h
    simp only [Option.some.injEq] at h
    rw [← h]
    exact hwf
  · have hlen : b.length ≤ c := by
      by_contra hcon
      unfold CircularBuffer.resize_buffer at h
      rw [if_neg he, if_neg (by omega)] at h
      exact absurd h (by simp)
    obtain ⟨b2, heq, hwf2, _⟩ := resize_spec b c hwf hlen hc
    rw [heq] at h
    simp only [Option.some.injEq] at h
    rw [← h]
    exact hwf2

theorem grow_wf (b b1 : CircularBuffer) (flag : Bool) (hwf : b.WF)
    (h : b.grow_buffer = some (flag, b1)) : b1.WF := by
  by_cases hm : b.remaining_mut = 0
  · rw [(grow_spec b hwf).1 hm] at h
    simp only [Option.some.injEq, Prod.mk.injEq] at h
    rw [← h.2]
    exact hwf
  · obtain ⟨b2, heq, hwf2, _⟩ := (grow_spec b hwf).2 (by omega)
    rw [heq] at h
    simp only [Option.some.injEq, Prod.mk.injEq] at h
    rw [← h.2]
    exact hwf2

theorem advance_mut_wf (b b1 : CircularBuffer) (count : Nat) (hwf : b.WF)
    (h : b.advance_mut_impl count = some b1) : b1.WF := by
  obtain ⟨h1, h2, h3, h4, h5⟩ := wf_fields b hwf
  unfold CircularBuffer.advance_mut_impl at h
  by_cases hA : count ≤ b.remaining_mut
  · rw [if_pos hA] at h
    by_cases hB : count ≤ b.remaining_mut_without_realloc
    · rw [if_pos hB] at h
      simp only [Option.some.injEq] at h
      rw [← h]
      simp only [CircularBuffer.remaining_mut_without_realloc,
        CircularBuffer.current_capacity] at hB
      refine ⟨?_, h2, ?_, ?_⟩
      · simp only [CircularBuffer.current_capacity]
        omega
      · intro hz
        simp only at hz
        exact h3 (by omega)
      · simp only [CircularBuffer.current_capacity]
        rcases Nat.eq_zero_or_pos b.position with hp | hp
        · exact Or.inl hp
        · right
          rcases h5 with h5 | h5 <;> omega
    · rw [if_neg hB] at h
      exact absurd h (by simp)
  · rw [if_neg hA] at h
    exact absurd h (by simp)

theorem bytes_mut_wf (b b1 : CircularBuffer) (s l : Nat) (hwf : b.WF)
    (h : b.bytes_mut_impl = some (b1, s, l)) : b1.WF := by
  obtain ⟨bm, s2, l2, heq, hwfm, _⟩ := bytes_mut_spec b hwf
  rw [heq] at h
  simp only [Option.some.injEq, Prod.mk.injEq] at h
  rw [← h.1]
  exact hwfm

theorem write_wf (b b1 : CircularBuffer) (input : List Nat) (n : Nat)
    (hwf : b.WF) (h : b.write input = some (n, b1)) : b1.WF := by
  obtain ⟨n2, b2, heq, hwf2, _⟩ := write_spec b input hwf
  rw [heq] at h
  simp only [Option.some.injEq, Prod.mk.injEq] at h
  rw [← h.2]
  exact hwf2

theorem read_wf (b b1 : CircularBuffer) (out : List Nat) (n : Nat)
    (out1 : List Nat) (hwf : b.WF) (h : b.read out = some (n, out1, b1)) :
    b1.WF := by
  unfold CircularBuffer.read at h
  dsimp only at h
  cases ha : b.advance (min b.bytes.length out.length) with
  | none =>
    rw [ha] at h
    exact absurd h (by simp)
  | some bx =>
    rw [ha] at h
    simp only [Option.some.injEq, Prod.mk.injEq] at h
    rw [← h.2.2]
    exact advance_wf b bx _ hwf ha

theorem read_exact_wf (b b1 : CircularBuffer) (n : Nat) (v : List Nat)
    (hwf : b.WF) (h : b.read_exact_into_vec n = some (v, b1)) : b1.WF := by
  unfold CircularBuffer.read_exact_into_vec at h
  by_cases hn : n ≤ b.remaining
  · rw [if_pos hn] at h
    dsimp only at h
    cases ha : b.advance (min n b.bytes.length) with
    | none =>
      rw [ha] at h
      exact absurd h (by simp)
    | some bx =>
      rw [ha] at h
      dsimp only at h
      by_cases hg : n - min n b.bytes.length ≤ bx.bytes.length
      · rw [if_pos hg] at h
        cases ha2 : bx.advance (n - min n b.bytes.length) with
        | none =>
          rw [ha2] at h
          exact absurd h (by simp)
        | some by2 =>
          rw [ha2] at h
          simp only [Option.some.injEq, Prod.mk.injEq] at h
          rw [← h.2]
          exact advance_wf bx by2 _ (advance_wf b bx _ hwf ha) ha2
      · rw [if_neg hg] at h
        exact absurd h (by simp)
  · rw [if_neg hn] at h
    exact absurd h (by simp)

theorem apply_soft_limit_wf (b b1 : CircularBuffer) (limit : Nat)
    (hwf : b.WF) (h : b.apply_soft_limit limit = some b1) : b1.WF := by
  unfold CircularBuffer.apply_soft_limit at h
  dsimp only at h
  by_cases hc1 : b.remaining = 0 ∧ min limit b.max_capacity < b.current_capacity
  · rw [if_pos hc1] at h
    simp only [Option.some.injEq] at h
    rw [← h]
    have hz : b.length = 0 := hc1.1
    refine ⟨?_, ?_, fun _ => rfl, Or.inl rfl⟩
    · simp only [CircularBuffer.current_capacity]
      simp only [List.length_nil]
      omega
    · simp only [CircularBuffer.current_capacity, List.length_nil]
      exact Nat.zero_le _
  · rw [if_neg hc1] at h
    by_cases hc2 : b.remaining ≤ min limit b.max_capacity / 2 ∧
        2 * min limit b.max_capacity ≤ b.current_capacity
    · rw [if_pos hc2] at h
      exact resize_wf b b1 _ hwf (Nat.min_le_right _ _) h
    · rw [if_neg hc2] at h
      simp only [Option.some.injEq] at h
      rw [← h]
      exact hwf

theorem new_wf (c m : Nat) : (CircularBuffer.new c m).WF := by
  unfold CircularBuffer.new
  refine ⟨?_, ?_, fun _ => rfl, Or.inl rfl⟩
  · simp [CircularBuffer.current_capacity]
  · simp only [CircularBuffer.current_capacity]
    simp [Nat.min_le_right]

theorem reachable_wf (b : CircularBuffer) (h : Reachable b) : b.WF := by
  induction h with
  | new c m => exact new_wf c m
  | read_step b out n out1 b1 _ heq ih => exact read_wf b b1 out n out1 ih heq
  | write_step b input n b1 _ heq ih => exact write_wf b b1 input n ih heq
  | advance_step b count b1 _ heq ih => exact advance_wf b b1 count ih heq
  | advance_mut_step b count b1 _ heq ih =>
    exact advance_mut_wf b b1 count ih heq
  | bytes_mut_step b b1 s l _ heq ih => exact bytes_mut_wf b b1 s l ih heq
  | grow_step b flag b1 _ heq ih => exact grow_wf b b1 flag ih heq
  | soft_limit_step b limit b1 _ heq ih =>
    exact apply_soft_limit_wf b b1 limit ih heq
  | read_exact_step b n v b1 _ heq ih => exact read_exact_wf b b1 n v ih heq

/-- C1 amended: for every well-formed buffer state with nonzero current
capacity and every output slice, read returns Ok(n) with
n = min(output.len(), first contiguous readable span length), writes the
first n unread FIFO bytes into the front of the output, and advances the
read cursor by n (the unread content loses its first n bytes). -/
theorem read_into_first_span (b : CircularBuffer) (output : List Nat)
    (hwf : b.WF) (hcap : 0 < b.current_capacity) :
    ∃ b1, b.read output = some (min b.bytes.length output.length,
        b.contents.take (min b.bytes.length output.length)
          ++ output.drop (min b.bytes.length output.length), b1) ∧
      b1.contents = b.contents.drop (min b.bytes.length output.length) ∧
      b1.length = b.length - min b.bytes.length output.length ∧
      b1.max_capacity = b.max_capacity ∧
      b1.current_capacity = b.current_capacity := by
  obtain ⟨b1, heq, _, hcon, hlen, hmax, hcap2⟩ := read_spec b output hwf hcap
  exact ⟨b1, heq, hcon, hlen, hmax, hcap2⟩

/-- C1 witness: on the well-formed state with storage [7,8,9,10],
position 1, length 2, reading into a 3-byte output copies the 2 available
bytes and empties the buffer. -/
theorem read_into_first_span_witness :
    ∃ b1, (⟨[7,8,9,10], 1, 2, 8, 4⟩ : CircularBuffer).read [0,0,0]
        = some (2, [8,9,0], b1) ∧ b1.length = 0 := by
  obtain ⟨b1, heq, _, hlen, _, _⟩ :=
    read_into_first_span ⟨[7,8,9,10], 1, 2, 8, 4⟩ [0,0,0]
      (by decide) (by decide)
  refine ⟨b1, ?_, ?_⟩
  · rw [heq]
    rfl
  · rw [hlen]
    decide

/-- C3: grow_buffer returns false and leaves the buffer unchanged exactly
when max_capacity - length = 0; otherwise it returns true and sets the
capacity to min max_capacity (max (2 * current_capacity)
(max 8 initial_capacity)), preserving the unread content. -/
theorem grow_buffer_policy (b : CircularBuffer) (hwf : b.WF) :
    (b.max_capacity - b.length = 0 → b.grow_buffer = some (false, b)) ∧
    (0 < b.max_capacity - b.length →
      ∃ b1, b.grow_buffer = some (true, b1) ∧
        b1.current_capacity = min b.max_capacity
          (max (b.current_capacity * 2) (max 8 b.initial_capacity)) ∧
        b1.contents = b.contents ∧ b1.length = b.length) := by
  have h := grow_spec b hwf
  constructor
  · intro hz
    exact h.1 hz
  · intro hp
    obtain ⟨b1, heq, _, hco, hle, _, _, hca, _⟩ := h.2 hp
    refine ⟨b1, heq, ?_, hco, hle⟩
    rw [hca]
    rfl

/-- C3 witness: growing the fresh buffer new(0, 16) succeeds and yields
capacity min 16 (max 0 (max 8 0)) = 8. -/
theorem grow_buffer_policy_witness :
    ∃ b1, (CircularBuffer.new 0 16).grow_buffer = some (true, b1) ∧
      b1.current_capacity = 8 := by
  obtain ⟨b1, heq, hca, _⟩ :=
    (grow_buffer_policy (CircularBuffer.new 0 16) (by decide)).2 (by decide)
  refine ⟨b1, heq, ?_⟩
  rw [hca]
  decide

/-- C4: apply_soft_limit with clamped limit2 = min limit max_capacity
deallocates the storage entirely (capacity 0, position 0) exactly when the
buffer is empty and the current capacity exceeds limit2; otherwise it
resizes to exactly limit2 when length ≤ limit2 / 2 and
current capacity ≥ 2 * limit2; otherwise it changes nothing. -/
theorem apply_soft_limit_policy (b : CircularBuffer) (limit : Nat)
    (hwf : b.WF) :
    (b.length = 0 ∧ min limit b.max_capacity < b.current_capacity →
      b.apply_soft_limit limit
        = some { b with buffer := [], position := 0 }) ∧
    (¬ (b.length = 0 ∧ min limit b.max_capacity < b.current_capacity) →
      b.length ≤ min limit b.max_capacity / 2 ∧
        2 * min limit b.max_capacity ≤ b.current_capacity →
      ∃ b1, b.apply_soft_limit limit = some b1 ∧
        b1.current_capacity = min limit b.max_capacity ∧
        b1.contents = b.contents ∧ b1.length = b.length) ∧
    (¬ (b.length = 0 ∧ min limit b.max_capacity < b.current_capacity) →
      ¬ (b.length ≤ min limit b.max_capacity / 2 ∧
          2 * min limit b.max_capacity ≤ b.current_capacity) →
      b.apply_soft_limit limit = some b) := by
  refine ⟨?_, ?_, ?_⟩
  · intro hc
    unfold CircularBuffer.apply_soft_limit
    dsimp only
    simp only [CircularBuffer.remaining]
    rw [if_pos hc]
  · intro hc1 hc2
    unfold CircularBuffer.apply_soft_limit
    dsimp only
    simp only [CircularBuffer.remaining]
    rw [if_neg hc1, if_pos hc2]
    have hlen : b.length ≤ min limit b.max_capacity := by
      obtain ⟨ha, _⟩ := hc2
      omega
    obtain ⟨b1, heq, _, hco, hle, _, _, hca⟩ :=
      resize_spec b (min limit b.max_capacity) hwf hlen (Nat.min_le_right _ _)
    exact ⟨b1, heq, hca, hco, hle⟩
  · intro hc1 hc2
    unfold CircularBuffer.apply_soft_limit
    dsimp only
    simp only [CircularBuffer.remaining]
    rw [if_neg hc1, if_neg hc2]

/-- C4 witness: on the full-capacity empty buffer new(16, 16), a soft
limit of 8 deallocates the storage. -/
theorem apply_soft_limit_policy_witness :
    (CircularBuffer.new 16 16).apply_soft_limit 8
      = some { CircularBuffer.new 16 16 with buffer := [], position := 0 } :=
  (apply_soft_limit_policy (CircularBuffer.new 16 16) 8 (by decide)).1
    (by decide)

/-- C5 amended: for every well-formed buffer with nonzero current capacity
whose unread content is B and every n ≤ length, read_exact_into_vec n
returns exactly the first n bytes of B in FIFO order (stitching the two
contiguous spans across a wraparound) and advances the read cursor by n. -/
theorem read_exact_roundtrip (b : CircularBuffer) (n : Nat) (hwf : b.WF)
    (hcap : 0 < b.current_capacity) (hn : n ≤ b.length) :
    ∃ b2, b.read_exact_into_vec n = some (b.contents.take n, b2) ∧
      b2.contents = b.contents.drop n ∧ b2.length = b.length - n := by
  obtain ⟨b2, heq, _, hcon, hlen, _, _⟩ := read_exact_spec b n hwf hcap hn
  exact ⟨b2, heq, hcon, hlen⟩

/-- C5 witness: the wrapped state with storage [10,11,12,13], position 2,
length 3 has unread content [12,13,10]; read_exact_into_vec 3 returns it
whole and empties the buffer. -/
theorem read_exact_roundtrip_witness :
    ∃ b2, (⟨[10,11,12,13], 2, 3, 8, 4⟩ : CircularBuffer).read_exact_into_vec 3
        = some ([12,13,10], b2) ∧ b2.length = 0 := by
  obtain ⟨b2, heq, _, hlen⟩ :=
    read_exact_roundtrip ⟨[10,11,12,13], 2, 3, 8, 4⟩ 3
      (by decide) (by decide) (by decide)
  refine ⟨b2, ?_, ?_⟩
  · rw [heq]
    rfl
  · rw [hlen]
    decide

/-- C7: for every well-formed buffer and non-empty input, write returns
Ok(0) leaving the buffer unchanged exactly when max_capacity - length = 0;
otherwise it returns Ok(n) with n = min(input.len(), writable span length)
at least 1, appends the first n input bytes after the existing unread
data, advances the write cursor by n, and changes the capacity only if
the allocation was full (it grows at most once). -/
theorem write_from_policy (b : CircularBuffer) (input : List Nat)
    (hwf : b.WF) (hne : input ≠ []) :
    (b.max_capacity - b.length = 0 → b.write input = some (0, b)) ∧
    (0 < b.max_capacity - b.length →
      ∃ n b1, b.write input = some (n, b1) ∧ 1 ≤ n ∧
        (∃ bm s spanLen, b.bytes_mut_impl = some (bm, s, spanLen) ∧
          n = min spanLen input.length) ∧
        b1.contents = b.contents ++ input.take n ∧
        b1.length = b.length + n ∧
        (b1.current_capacity = b.current_capacity ∨
          b.current_capacity = b.length)) := by
  obtain ⟨n, b1, heq, hwf1, hcon, hlen, hmax, hini, hcap, hfull, hpos,
    hspan⟩ := write_spec b input hwf
  constructor
  · intro hz
    obtain ⟨hn0, hb⟩ := hfull hz
    rw [heq, hn0, hb]
  · intro hp
    have hip : 0 < input.length := by
      cases input with
      | nil => exact absurd rfl hne
      | cons a l => simp
    have hn1 : 0 < n := hpos hp hip
    refine ⟨n, b1, heq, hn1, hspan, hcon, hlen, ?_⟩
    rcases hcap with hc | hc
    · exact Or.inl hc
    · right
      obtain ⟨w1, w2, w3, w4⟩ := hwf
      simp only [CircularBuffer.remaining_mut_without_realloc] at hc
      omega

/-- C7 witness: writing [1,2,3] into the fresh buffer new(0, 16) copies
all 3 bytes and leaves 3 unread bytes. -/
theorem write_from_policy_witness :
    ∃ n b1, (CircularBuffer.new 0 16).write [1,2,3] = some (n, b1) ∧
      1 ≤ n ∧ b1.length = n := by
  obtain ⟨n, b1, heq, hn1, _, _, hlen, _⟩ :=
    (write_from_policy (CircularBuffer.new 0 16) [1,2,3]
      (by decide) (by decide)).2 (by decide)
  refine ⟨n, b1, heq, hn1, ?_⟩
  rw [hlen]
  exact Nat.zero_add n

/-- C8 amended: for every sequence of completed public operations starting
from new(c, m) and excluding set_read_cursor (reads, writes, advances,
commit of writes, span requests, grow, apply_soft_limit,
read_exact_into_vec), after every call the invariant
length ≤ current_capacity() ≤ max_capacity holds. -/
theorem reachable_invariant (b : CircularBuffer) (h : Reachable b) :
    b.length ≤ b.current_capacity ∧
      b.current_capacity ≤ b.max_capacity := by
  have hwf := reachable_wf b h
  exact ⟨hwf.1, hwf.2.1⟩

/-- C8 witness: the state reached by new(0, 16) followed by writing one
byte satisfies the invariant. -/
theorem reachable_invariant_witness :
    (⟨[5,0,0,0,0,0,0,0], 0, 1, 16, 0⟩ : CircularBuffer).length
        ≤ (⟨[5,0,0,0,0,0,0,0], 0, 1, 16, 0⟩ : CircularBuffer).current_capacity ∧
      (⟨[5,0,0,0,0,0,0,0], 0, 1, 16, 0⟩ : CircularBuffer).current_capacity
        ≤ (⟨[5,0,0,0,0,0,0,0], 0, 1, 16, 0⟩ : CircularBuffer).max_capacity :=
  reachable_invariant ⟨[5,0,0,0,0,0,0,0], 0, 1, 16, 0⟩
    (Reachable.write_step (CircularBuffer.new 0 16) [5] 1
      ⟨[5,0,0,0,0,0,0,0], 0, 1, 16, 0⟩ (Reachable.new 0 16) (by decide))
